import Mathlib

/-!
A verification development for the chunking and use-case classification engine
of the github-rag-system repository.  The definitions below are a shallow
embedding of the TypeScript classes `CodeChunker` and `GitHubRepository`
(packages/etl/src: code-chunker.ts and github-repo.ts).  File contents and
paths are modelled as `List Char`; JavaScript string operations
(`trim`, `includes`, `split`, `toLowerCase`, `replace`, the regexes used by
the chunker) are modelled by executable functions on character lists.
Chunk ids (`file-${uuid()}` etc.) are opaque fresh tokens in the source and
are not part of the model; no claim concerns them.
-/

set_option maxHeartbeats 1000000

namespace GithubRag

/-- Shorthand turning a Lean string literal into the character-list model. -/
def chars (s : String) : List Char := s.toList

/-! ## JavaScript string primitives -/

/-- Membership of the ECMAScript whitespace set, as used by `String.trim` and
by the regex class `\s`.  Restricted to the code points that can actually occur
here: ASCII whitespace plus NBSP and the BOM. -/
def isJsWs (c : Char) : Bool :=
  c = ' ' || c = '\t' || c = '\n' || c = '\r' ||
  c.toNat = 0x0B || c.toNat = 0x0C || c.toNat = 0xA0 || c.toNat = 0xFEFF

/-- Model of `String.prototype.trim`. -/
def jsTrim (s : List Char) : List Char :=
  ((s.dropWhile isJsWs).reverse.dropWhile isJsWs).reverse

/-- Model of `String.prototype.includes` (substring containment). -/
def strIncludes (s sub : List Char) : Bool :=
  match s with
  | [] => sub.isEmpty
  | c :: t => sub.isPrefixOf (c :: t) || strIncludes t sub

/-- Model of `String.prototype.toLowerCase` (ASCII range). -/
def toLowerStr (s : List Char) : List Char := s.map Char.toLower

/-- Model of `str.replace(pat, '')` with a plain-string pattern: remove the
first occurrence of `pat`, leave the string unchanged when `pat` is absent. -/
def replaceFirstErase (pat : List Char) : List Char → List Char
  | [] => []
  | c :: t =>
      if pat.isPrefixOf (c :: t) then (c :: t).drop pat.length
      else c :: replaceFirstErase pat t

/-- Model of Node `path.basename`: strip trailing slashes, then return the
last path component ('/' for an all-slash nonempty path). -/
def basename (p : List Char) : List Char :=
  let revTrim := p.reverse.dropWhile (fun c => c = '/')
  if revTrim.isEmpty then (if p.isEmpty then [] else ['/'])
  else (revTrim.takeWhile (fun c => c ≠ '/')).reverse

/-- Model of Node `path.extname`: the suffix of the last path component from
its final dot, with the Node special cases (no dot, leading dot, a component
that is exactly the two-dot string) giving the empty extension. -/
def extname (p : List Char) : List Char :=
  let b := (p.reverse.dropWhile (fun c => c = '/')).takeWhile (fun c => c ≠ '/')
  -- b is the last component, reversed
  let afterDot := b.takeWhile (fun c => c ≠ '.')
  if afterDot.length = b.length then []          -- no dot in the component
  else if afterDot.length + 1 = b.length then [] -- the final dot is the leading char
  else if b = ['.', '.'] then []
  else '.' :: afterDot.reverse

/-- JS word character, the regex class `\w`: `[A-Za-z0-9_]`. -/
def isWordChar (c : Char) : Bool :=
  ('a' ≤ c && c ≤ 'z') || ('A' ≤ c && c ≤ 'Z') || ('0' ≤ c && c ≤ '9') || c = '_'

/-! ## Data model

`GitHubRepositoryInfo`, `GitHubFile`, `ChunkType`, `UseCase` and `CodeChunk`
from packages/common/src/types/github.ts. -/

structure GitHubRepositoryInfo where
  url : List Char
  owner : List Char
  name : List Char
  branch : Option (List Char)
deriving DecidableEq

structure GitHubFile where
  path : List Char
  content : List Char
  language : Option (List Char)
  size : Nat
deriving DecidableEq

inductive ChunkType where
  | FILE
  | CLASS
  | FUNCTION
  | SUMMARY
deriving DecidableEq

inductive UseCase where
  | BUG_FIXING
  | CODE_GENERATION
  | EXPLANATION
deriving DecidableEq

structure ChunkMetadata where
  repositoryInfo : GitHubRepositoryInfo
  filePath : List Char
  language : Option (List Char)
  startLine : Option Nat
  endLine : Option Nat
  symbolName : Option (List Char)
deriving DecidableEq

structure CodeChunk where
  content : List Char
  type : ChunkType
  useCases : List UseCase
  metadata : ChunkMetadata
deriving DecidableEq

/-! ## File filter (`CodeChunker.shouldSkipFile`, `CodeChunker.isLikelyBinary`) -/

/-- Characters counted by the non-printable regex
`[\x00-\x08\x0B\x0C\x0E-\x1F\x7F]` in `isLikelyBinary`. -/
def isNonPrintable (c : Char) : Bool :=
  c.toNat ≤ 0x08 || c.toNat = 0x0B || c.toNat = 0x0C ||
  (0x0E ≤ c.toNat && c.toNat ≤ 0x1F) || c.toNat = 0x7F

/-- Model of `CodeChunker.isLikelyBinary`: a null byte, or more than 10% of
the characters non-printable (`count > length * 0.1`, i.e. `10*count > length`;
the JS comparison against a non-null match array also requires `count > 0`,
which `10*count > length` already implies for nonempty content). -/
def isLikelyBinary (content : List Char) : Bool :=
  if decide ((Char.ofNat 0) ∈ content) then true
  else
    let nonPrintable := content.countP isNonPrintable
    decide (0 < nonPrintable) && decide (content.length < 10 * nonPrintable)

/-- The `skipPatterns` regex list of `shouldSkipFile`: `.git/` and
`node_modules/` are unanchored (substring) patterns, the rest are anchored
with `$` (suffix) patterns. -/
def skipPatternHit (path : List Char) : Bool :=
  strIncludes path (chars ".git/") ||
  strIncludes path (chars "node_modules/") ||
  List.isSuffixOf (chars ".DS_Store") path ||
  List.isSuffixOf (chars ".env") path ||
  List.isSuffixOf (chars ".log") path ||
  List.isSuffixOf (chars ".lock") path ||
  List.isSuffixOf (chars "package-lock.json") path ||
  List.isSuffixOf (chars "yarn.lock") path ||
  List.isSuffixOf (chars "pnpm-lock.yaml") path

/-- Model of `CodeChunker.shouldSkipFile`. -/
def shouldSkipFile (file : GitHubFile) : Bool :=
  if (jsTrim file.content).isEmpty then true
  else if 2 * 1024 * 1024 < file.size then true
  else if isLikelyBinary file.content then true
  else if skipPatternHit file.path then true
  else false

/-- Model of `CodeChunker.isProgrammingFile`. -/
def isProgrammingFile (file : GitHubFile) : Bool :=
  match file.language with
  | none => false
  | some lang =>
      [chars "typescript", chars "javascript", chars "python", chars "java",
       chars "c_cpp", chars "csharp", chars "go", chars "ruby", chars "php",
       chars "swift", chars "rust", chars "kotlin"].contains lang

/-! ## Use-case classifier (`CodeChunker.determineUseCases`,
`CodeChunker.determineUseCasesForSymbol`) -/

/-- The `isTestFile` test of `determineUseCases` (filename checks run on the
lower-cased basename, path checks on the raw path). -/
def isTestFile (file : GitHubFile) : Bool :=
  let fileName := toLowerStr (basename file.path)
  strIncludes fileName (chars "test") ||
  strIncludes fileName (chars "spec") ||
  strIncludes file.path (chars "test/") ||
  strIncludes file.path (chars "tests/") ||
  strIncludes file.path (chars "__tests__/")

/-- The `isDocFile` test of `determineUseCases`. -/
def isDocFile (file : GitHubFile) : Bool :=
  let fileName := toLowerStr (basename file.path)
  strIncludes fileName (chars "readme") ||
  strIncludes fileName (chars "documentation") ||
  strIncludes fileName (chars "docs") ||
  decide (extname file.path = chars ".md")

/-- The `isApiFile` test of `determineUseCases`. -/
def isApiFile (file : GitHubFile) : Bool :=
  let fileName := toLowerStr (basename file.path)
  strIncludes fileName (chars "api") ||
  strIncludes fileName (chars "interface") ||
  strIncludes fileName (chars "contract") ||
  List.isSuffixOf (chars ".d.ts") fileName

/-- The three conditional pushes of `determineUseCases`, before the
empty-set fallback. -/
def fileUseCasesRaw (file : GitHubFile) : List UseCase :=
  let fileName := toLowerStr (basename file.path)
  (if !isTestFile file && !isDocFile file then [UseCase.BUG_FIXING] else []) ++
  (if isApiFile file || strIncludes fileName (chars "example") || isTestFile file
   then [UseCase.CODE_GENERATION] else []) ++
  (if isDocFile file || isApiFile file || strIncludes file.path (chars "public/")
   then [UseCase.EXPLANATION] else [])

/-- Model of `CodeChunker.determineUseCases`. -/
def determineUseCases (file : GitHubFile) : List UseCase :=
  let useCases := fileUseCasesRaw file
  if useCases.isEmpty then
    [UseCase.BUG_FIXING, UseCase.CODE_GENERATION, UseCase.EXPLANATION]
  else useCases

/-- The three conditional pushes of `determineUseCasesForSymbol`, before the
empty-set fallback. -/
def symbolUseCasesRaw (symbolName : List Char) (chunkType : ChunkType)
    (file : GitHubFile) : List UseCase :=
  let lowerSymbolName := toLowerStr symbolName
  (if strIncludes lowerSymbolName (chars "error") ||
      strIncludes lowerSymbolName (chars "exception") ||
      strIncludes lowerSymbolName (chars "handle") ||
      strIncludes lowerSymbolName (chars "process") ||
      strIncludes lowerSymbolName (chars "validate")
   then [UseCase.BUG_FIXING] else []) ++
  (if strIncludes lowerSymbolName (chars "create") ||
      strIncludes lowerSymbolName (chars "build") ||
      strIncludes lowerSymbolName (chars "new") ||
      strIncludes lowerSymbolName (chars "get") ||
      strIncludes lowerSymbolName (chars "generate") ||
      (chars "to").isPrefixOf lowerSymbolName ||
      (chars "from").isPrefixOf lowerSymbolName ||
      decide (chunkType = ChunkType.CLASS)
   then [UseCase.CODE_GENERATION] else []) ++
  (if !((chars "_").isPrefixOf lowerSymbolName) &&
      !(strIncludes lowerSymbolName (chars "internal")) &&
      !(strIncludes lowerSymbolName (chars "private")) &&
      (strIncludes lowerSymbolName (chars "public") ||
       strIncludes file.path (chars "public") ||
       decide (chunkType = ChunkType.CLASS))
   then [UseCase.EXPLANATION] else [])

/-- Model of `CodeChunker.determineUseCasesForSymbol`. -/
def determineUseCasesForSymbol (symbolName : List Char) (chunkType : ChunkType)
    (file : GitHubFile) : List UseCase :=
  let useCases := symbolUseCasesRaw symbolName chunkType file
  if useCases.isEmpty then
    [UseCase.BUG_FIXING, UseCase.CODE_GENERATION, UseCase.EXPLANATION]
  else useCases

/-! ## File-level chunks (`CodeChunker.createFileChunks`) -/

/-- The README test of `createFileChunks`: the lower-cased basename is exactly
`readme.md` or `readme`, or contains `readme` while the (case-sensitive)
extension is `.md`. -/
def isReadmeFile (file : GitHubFile) : Bool :=
  let fileName := toLowerStr (basename file.path)
  decide (fileName = chars "readme.md") ||
  decide (fileName = chars "readme") ||
  (strIncludes fileName (chars "readme") && decide (extname file.path = chars ".md"))

/-- Model of `CodeChunker.createFileChunks`: one `FILE` chunk with the whole
text, plus one `SUMMARY` chunk (tagged only `EXPLANATION`) for README files. -/
def createFileChunks (repoInfo : GitHubRepositoryInfo) (file : GitHubFile) :
    List CodeChunk :=
  [{ content := file.content,
     type := ChunkType.FILE,
     useCases := determineUseCases file,
     metadata := { repositoryInfo := repoInfo, filePath := file.path,
                   language := file.language,
                   startLine := none, endLine := none, symbolName := none } }] ++
  (if isReadmeFile file then
    [{ content := file.content,
       type := ChunkType.SUMMARY,
       useCases := [UseCase.EXPLANATION],
       metadata := { repositoryInfo := repoInfo, filePath := file.path,
                     language := file.language,
                     startLine := none, endLine := none, symbolName := none } }]
   else [])

/-! ## Symbol boundary detector (`CodeChunker.createCodeChunks`)

The two detection regexes are modelled as leftmost-match searches, mirroring
the semantics of `String.prototype.match` with a non-global regex:

* `classMatch`: `/(?:class|interface)\s+(\w+)(?:\s+extends|\s+implements|\s*{)?/`
  succeeds at a position where `class` or `interface` is followed by one or
  more whitespace characters and a word character; the capture is the maximal
  word-character run there (the trailing group is fully optional and cannot
  affect success or the capture).

* `functionMatch`:
  an optional keyword (`function`, `def`, `public`, `private`, `protected`),
  then `\s*(\w+)\s*\([^)]*\)` followed by fully optional trailing parts.
  Success at a position needs (after the optional keyword and whitespace) a
  nonempty word run, optional whitespace, an opening parenthesis and a later
  closing parenthesis on the same line.  Because `\w`, `\s`, `(` are pairwise
  disjoint character classes, the greedy matches need no backtracking, except
  that a keyword alternative whose tail fails falls back to the next
  alternative and finally to the empty alternative, exactly as JS does. -/

def classMatchAt (s : List Char) : Option (List Char) :=
  let afterKw : Option (List Char) :=
    if (chars "class").isPrefixOf s then some (s.drop 5)
    else if (chars "interface").isPrefixOf s then some (s.drop 9)
    else none
  match afterKw with
  | none => none
  | some rest =>
      match rest with
      | [] => none
      | c :: _ =>
          if isJsWs c then
            let name := (rest.dropWhile isJsWs).takeWhile isWordChar
            if name.isEmpty then none else some name
          else none

/-- Leftmost search for the class/interface pattern over the line. -/
def classMatch : List Char → Option (List Char)
  | [] => none
  | c :: t =>
      match classMatchAt (c :: t) with
      | some name => some name
      | none => classMatch t

/-- The part of the function regex after the optional keyword:
`\s*(\w+)\s*\([^)]*\)`. -/
def funcTail (s : List Char) : Option (List Char) :=
  let afterWs := s.dropWhile isJsWs
  let name := afterWs.takeWhile isWordChar
  if name.isEmpty then none
  else
    match (afterWs.drop name.length).dropWhile isJsWs with
    | '(' :: r => if r.contains ')' then some name else none
    | _ => none

/-- Try the keyword alternatives in JS order, then the empty alternative. -/
def funcKeywordTries (s : List Char) : List (List Char) → Option (List Char)
  | [] => funcTail s
  | kw :: kws =>
      if kw.isPrefixOf s then
        match funcTail (s.drop kw.length) with
        | some name => some name
        | none => funcKeywordTries s kws
      else funcKeywordTries s kws

def functionMatchAt (s : List Char) : Option (List Char) :=
  funcKeywordTries s
    [chars "function", chars "def", chars "public", chars "private", chars "protected"]

/-- Leftmost search for the function pattern over the line. -/
def functionMatch : List Char → Option (List Char)
  | [] => none
  | c :: t =>
      match functionMatchAt (c :: t) with
      | some name => some name
      | none => functionMatch t

/-- The open region state of the scanning loop (`currentFunction` in the
source; its `endLine` field is `-1` until the close index is known, so the
embedding passes the close index to `closeRegion` directly). -/
structure Region where
  name : List Char
  content : List (List Char)
  startLine : Nat
  isClass : Bool
deriving DecidableEq

/-- The close test of the loop: `/^\s*}\s*$/` for functions. -/
def isFunctionCloseLine (line : List Char) : Bool :=
  match line.dropWhile isJsWs with
  | c :: rest => decide (c = '\x7d') && rest.all isJsWs
  | [] => false

/-- The close test of the loop: `line.trim() === '\x7d'` for classes,
`/^\s*}\s*$/` for functions. -/
def closesRegion (r : Region) (line : List Char) : Bool :=
  (r.isClass && decide (jsTrim line = ['\x7d'])) ||
  (!r.isClass && isFunctionCloseLine line)

/-- Emission of a completed region as a `CLASS` or `FUNCTION` chunk. -/
def closeRegion (repoInfo : GitHubRepositoryInfo) (file : GitHubFile)
    (r : Region) (endLine : Nat) : CodeChunk :=
  let chunkType := if r.isClass then ChunkType.CLASS else ChunkType.FUNCTION
  { content := List.intercalate ['\n'] r.content,
    type := chunkType,
    useCases := determineUseCasesForSymbol r.name chunkType file,
    metadata := { repositoryInfo := repoInfo, filePath := file.path,
                  language := file.language,
                  startLine := some r.startLine, endLine := some endLine,
                  symbolName := some r.name } }

/-- The scanning loop of `createCodeChunks`, recursing over the remaining
lines with the current line index and the open-region state.  On end of input
with an open region the region is closed at the last line index `i - 1`. -/
def scanLines (repoInfo : GitHubRepositoryInfo) (file : GitHubFile) :
    List (List Char) → Nat → Option Region → List CodeChunk
  | [], i, some r => [closeRegion repoInfo file r (i - 1)]
  | [], _, none => []
  | line :: rest, i, some r =>
      if closesRegion r line then
        closeRegion repoInfo file { r with content := r.content ++ [line] } i ::
          scanLines repoInfo file rest (i + 1) none
      else
        scanLines repoInfo file rest (i + 1)
          (some { r with content := r.content ++ [line] })
  | line :: rest, i, none =>
      match classMatch line with
      | some name =>
          scanLines repoInfo file rest (i + 1)
            (some { name := name, content := [line], startLine := i, isClass := true })
      | none =>
          match functionMatch line with
          | some name =>
              scanLines repoInfo file rest (i + 1)
                (some { name := name, content := [line], startLine := i, isClass := false })
          | none => scanLines repoInfo file rest (i + 1) none

/-- Model of `content.split('\n')`. -/
def splitLines (content : List Char) : List (List Char) :=
  List.splitOn '\n' content

/-- Model of `CodeChunker.createCodeChunks` (the try/catch in the source can
only be an abort-with-partial-result safeguard; the scanning itself is total,
so the pure model is the whole body). -/
def createCodeChunks (repoInfo : GitHubRepositoryInfo) (file : GitHubFile) :
    List CodeChunk :=
  scanLines repoInfo file (splitLines file.content) 0 none

/-- The per-file body of the `processFiles` loop. -/
def processFile (repoInfo : GitHubRepositoryInfo) (file : GitHubFile) :
    List CodeChunk :=
  if shouldSkipFile file then []
  else
    createFileChunks repoInfo file ++
      (if isProgrammingFile file then createCodeChunks repoInfo file else [])

/-- Model of `CodeChunker.processFiles`. -/
def processFiles (repoInfo : GitHubRepositoryInfo) (files : List GitHubFile) :
    List CodeChunk :=
  files.flatMap (processFile repoInfo)

/-! ## Repository reference resolution (`GitHubRepository` constructor) -/

/-- Model of the owner/name derivation in the `GitHubRepository` constructor:
when owner or name is missing (the empty string is JS-falsy), split the URL on
`/`; if at least two segments exist, the last segment (with the first
occurrence of `.git` removed via `String.replace`) fills a missing name and
the second-to-last fills a missing owner. -/
def resolveRepoInfo (info : GitHubRepositoryInfo) : GitHubRepositoryInfo :=
  if info.owner.isEmpty || info.name.isEmpty then
    let urlParts := List.splitOn '/' info.url
    if 2 ≤ urlParts.length then
      let nm := urlParts.getLastD []
      let ow := urlParts.dropLast.getLastD []
      { info with
        owner := if info.owner.isEmpty then ow else info.owner,
        name := if info.name.isEmpty then replaceFirstErase (chars ".git") nm
                else info.name }
    else info
  else info

/-- Modelled from the spec (for comparison with the code): the name
transformation the spec describes, stripping a trailing `.git` suffix and
leaving the name unchanged otherwise. -/
def specStripTrailingGitSuffix (nm : List Char) : List Char :=
  if List.isSuffixOf (chars ".git") nm then nm.take (nm.length - 4) else nm

/-! ## Bridging lemmas for the string primitives -/

lemma isPrefixOf_eq_true_iff (sub s : List Char) :
    sub.isPrefixOf s = true ↔ ∃ v, s = sub ++ v := by
  induction sub generalizing s with
  | nil => simp [List.isPrefixOf]
  | cons c t ih =>
      cases s with
      | nil => simp [List.isPrefixOf]
      | cons b bs =>
          simp only [List.isPrefixOf, Bool.and_eq_true, beq_iff_eq, ih,
            List.cons_append, List.cons.injEq]
          constructor
          · rintro ⟨rfl, v, rfl⟩; exact ⟨v, rfl, rfl⟩
          · rintro ⟨v, rfl, rfl⟩; exact ⟨rfl, v, rfl⟩

lemma strIncludes_eq_true_iff (s sub : List Char) :
    strIncludes s sub = true ↔ ∃ u v, s = u ++ sub ++ v := by
  induction s with
  | nil =>
      simp only [strIncludes, List.isEmpty_iff]
      constructor
      · rintro rfl; exact ⟨[], [], rfl⟩
      · rintro ⟨u, v, huv⟩
        rcases List.append_eq_nil.mp huv.symm with ⟨h1, -⟩
        exact (List.append_eq_nil.mp h1).2
  | cons c t ih =>
      simp only [strIncludes, Bool.or_eq_true, isPrefixOf_eq_true_iff, ih]
      constructor
      · rintro (⟨v, hv⟩ | ⟨u, v, huv⟩)
        · exact ⟨[], v, by simpa using hv⟩
        · exact ⟨c :: u, v, by simp [huv]⟩
      · rintro ⟨u, v, huv⟩
        cases u with
        | nil => exact Or.inl ⟨v, by simpa using huv⟩
        | cons b bs =>
            right
            rw [List.cons_append, List.cons_append, List.cons.injEq] at huv
            exact ⟨bs, v, by simpa using huv.2⟩

lemma isSuffixOf_eq_true_iff (pat s : List Char) :
    List.isSuffixOf pat s = true ↔ ∃ u, s = u ++ pat := by
  rw [List.isSuffixOf, isPrefixOf_eq_true_iff]
  constructor
  · rintro ⟨v, hv⟩
    refine ⟨v.reverse, ?_⟩
    have := congrArg List.reverse hv
    simpa using this
  · rintro ⟨u, rfl⟩
    exact ⟨u.reverse, by simp⟩

lemma jsTrim_isEmpty_iff (s : List Char) :
    (jsTrim s).isEmpty = true ↔ ∀ c ∈ s, isJsWs c = true := by
  unfold jsTrim
  rw [List.isEmpty_iff, List.reverse_eq_nil_iff, List.dropWhile_eq_nil_iff]
  constructor
  · intro h c hc
    by_cases hmem : c ∈ s.dropWhile isJsWs
    · exact h c (List.mem_reverse.mpr hmem)
    · have hsplit := List.takeWhile_append_dropWhile (p := isJsWs) (l := s)
      rw [← hsplit] at hc
      rcases List.mem_append.mp hc with htk | hdk
      · exact List.mem_takeWhile_imp htk
      · exact absurd hdk hmem
  · intro h c hc
    exact h c (List.dropWhile_sublist _ |>.mem (List.mem_reverse.mp hc))

lemma isLikelyBinary_eq_true_iff (content : List Char) :
    isLikelyBinary content = true ↔
      (Char.ofNat 0) ∈ content ∨
      content.length < 10 * content.countP isNonPrintable := by
  unfold isLikelyBinary
  by_cases h : (Char.ofNat 0) ∈ content
  · simp [h]
  · simp [h]
    intro h2
    have hpos : 0 < List.countP isNonPrintable content := by omega
    exact List.countP_pos_iff.mp hpos

lemma shouldSkipFile_eq_or (f : GitHubFile) :
    shouldSkipFile f =
      ((jsTrim f.content).isEmpty || decide (2 * 1024 * 1024 < f.size) ||
       isLikelyBinary f.content || skipPatternHit f.path) := by
  unfold shouldSkipFile
  by_cases h1 : (jsTrim f.content).isEmpty <;>
    by_cases h2 : 2 * 1024 * 1024 < f.size <;>
      by_cases h3 : isLikelyBinary f.content <;>
        by_cases h4 : skipPatternHit f.path <;>
          simp [h1, h2, h3, h4]

/-- C3 — `shouldSkipFile` holds exactly when one of the four spec conditions
holds (empty/whitespace-only content, size above 2 MiB = 2,097,152 bytes, the
binary heuristic: a null byte or more than 10% of characters in the control
ranges, or a denylist path hit by case-sensitive substring/suffix match); in
particular a file containing a null byte is always skipped. -/
theorem shouldSkipFile_characterization (f : GitHubFile) :
    (shouldSkipFile f = true ↔
      ((∀ c ∈ f.content, isJsWs c = true) ∨
       2097152 < f.size ∨
       ((Char.ofNat 0) ∈ f.content ∨
        f.content.length < 10 * f.content.countP isNonPrintable) ∨
       ((∃ u v, f.path = u ++ chars ".git/" ++ v) ∨
        (∃ u v, f.path = u ++ chars "node_modules/" ++ v) ∨
        (∃ u, f.path = u ++ chars ".DS_Store") ∨
        (∃ u, f.path = u ++ chars ".env") ∨
        (∃ u, f.path = u ++ chars ".log") ∨
        (∃ u, f.path = u ++ chars ".lock") ∨
        (∃ u, f.path = u ++ chars "package-lock.json") ∨
        (∃ u, f.path = u ++ chars "yarn.lock") ∨
        (∃ u, f.path = u ++ chars "pnpm-lock.yaml")))) ∧
    ((Char.ofNat 0) ∈ f.content → shouldSkipFile f = true) := by
  have hpat : skipPatternHit f.path = true ↔
      ((∃ u v, f.path = u ++ chars ".git/" ++ v) ∨
       (∃ u v, f.path = u ++ chars "node_modules/" ++ v) ∨
       (∃ u, f.path = u ++ chars ".DS_Store") ∨
       (∃ u, f.path = u ++ chars ".env") ∨
       (∃ u, f.path = u ++ chars ".log") ∨
       (∃ u, f.path = u ++ chars ".lock") ∨
       (∃ u, f.path = u ++ chars "package-lock.json") ∨
       (∃ u, f.path = u ++ chars "yarn.lock") ∨
       (∃ u, f.path = u ++ chars "pnpm-lock.yaml")) := by
    unfold skipPatternHit
    simp only [Bool.or_eq_true, strIncludes_eq_true_iff, isSuffixOf_eq_true_iff,
      or_assoc]
  have hmain : shouldSkipFile f = true ↔
      ((∀ c ∈ f.content, isJsWs c = true) ∨
       2097152 < f.size ∨
       ((Char.ofNat 0) ∈ f.content ∨
        f.content.length < 10 * f.content.countP isNonPrintable) ∨
       skipPatternHit f.path = true) := by
    rw [shouldSkipFile_eq_or]
    simp only [Bool.or_eq_true, decide_eq_true_eq, jsTrim_isEmpty_iff,
      isLikelyBinary_eq_true_iff, or_assoc]
  refine ⟨hmain.trans (by rw [hpat]), fun h0 => ?_⟩
  exact hmain.mpr (Or.inr (Or.inr (Or.inl (Or.inl h0))))

/-- C3 witness — a file whose path ends in `.lock` is skipped, and a file
containing a null byte is skipped. -/
theorem shouldSkipFile_characterization_witness :
    shouldSkipFile ⟨chars "deps.lock", chars "x", none, 1⟩ = true ∧
    shouldSkipFile ⟨chars "img.png", ['a', Char.ofNat 0], none, 2⟩ = true := by
  constructor
  · apply (shouldSkipFile_characterization ⟨chars "deps.lock", chars "x", none, 1⟩).1.mpr
    refine Or.inr (Or.inr (Or.inr ?_))
    refine Or.inr (Or.inr (Or.inr (Or.inr (Or.inr (Or.inl ?_)))))
    exact ⟨chars "deps", by decide⟩
  · exact (shouldSkipFile_characterization
      ⟨chars "img.png", ['a', Char.ofNat 0], none, 2⟩).2 (by decide)

/-! ## Classifier lemmas -/

lemma mem_if_singleton {α : Type} (b : Bool) (x a : α) :
    a ∈ (if b then [x] else ([] : List α)) ↔ (b = true ∧ a = x) := by
  cases b <;> simp

lemma fileUseCasesRaw_ne_nil (f : GitHubFile) :
    (fileUseCasesRaw f).isEmpty = false := by
  unfold fileUseCasesRaw
  by_cases ht : isTestFile f <;> by_cases hd : isDocFile f <;>
    simp [ht, hd]

lemma determineUseCases_eq_raw (f : GitHubFile) :
    determineUseCases f = fileUseCasesRaw f := by
  simp [determineUseCases, fileUseCasesRaw_ne_nil]

/-- C4 — classification is total: both `determineUseCases` (classifyFile) and
`determineUseCasesForSymbol` (classifySymbol) return a non-empty use-case
list for every input, thanks to the all-three fallback. -/
theorem classifiers_total (f : GitHubFile) (symbolName : List Char)
    (chunkType : ChunkType) :
    (determineUseCases f).isEmpty = false ∧
    (determineUseCasesForSymbol symbolName chunkType f).isEmpty = false := by
  constructor
  · rw [determineUseCases_eq_raw]; exact fileUseCasesRaw_ne_nil f
  · unfold determineUseCasesForSymbol
    by_cases h : (symbolUseCasesRaw symbolName chunkType f).isEmpty <;> simp [h]

/-- C10 — the file-level rules alone already produce a non-empty set for
every file, so the fallback branch of `determineUseCases` never fires and
`determineUseCases` always equals its pre-fallback list; the symbol-level
classifier, in contrast, does reach its fallback (e.g. for a plain function
named `foo` in a non-public path). -/
theorem file_fallback_unreachable :
    (∀ f : GitHubFile,
      (fileUseCasesRaw f).isEmpty = false ∧
      determineUseCases f = fileUseCasesRaw f) ∧
    symbolUseCasesRaw (chars "foo") ChunkType.FUNCTION
      ⟨chars "src/a.ts", chars "let x = 1", some (chars "typescript"), 9⟩ = [] ∧
    determineUseCasesForSymbol (chars "foo") ChunkType.FUNCTION
      ⟨chars "src/a.ts", chars "let x = 1", some (chars "typescript"), 9⟩ =
      [UseCase.BUG_FIXING, UseCase.CODE_GENERATION, UseCase.EXPLANATION] :=
  ⟨fun f => ⟨fileUseCasesRaw_ne_nil f, determineUseCases_eq_raw f⟩,
   by decide, by decide⟩

/-- C5 — label membership for `determineUseCases`: `BUG_FIXING` iff neither
test nor doc file; `CODE_GENERATION` iff api file, basename containing
`example`, or test file; `EXPLANATION` iff doc file, api file, or path
containing `public/`; with `isDocFile` spelled out as in the source. -/
theorem determineUseCases_membership (f : GitHubFile) :
    (UseCase.BUG_FIXING ∈ determineUseCases f ↔
      (isTestFile f = false ∧ isDocFile f = false)) ∧
    (UseCase.CODE_GENERATION ∈ determineUseCases f ↔
      (isApiFile f = true ∨
       strIncludes (toLowerStr (basename f.path)) (chars "example") = true ∨
       isTestFile f = true)) ∧
    (UseCase.EXPLANATION ∈ determineUseCases f ↔
      (isDocFile f = true ∨ isApiFile f = true ∨
       strIncludes f.path (chars "public/") = true)) ∧
    (isDocFile f = true ↔
      (strIncludes (toLowerStr (basename f.path)) (chars "readme") = true ∨
       strIncludes (toLowerStr (basename f.path)) (chars "documentation") = true ∨
       strIncludes (toLowerStr (basename f.path)) (chars "docs") = true ∨
       extname f.path = chars ".md")) := by
  rw [determineUseCases_eq_raw]
  unfold fileUseCasesRaw
  refine ⟨?_, ?_, ?_, ?_⟩
  · simp [List.mem_append, mem_if_singleton, Bool.and_eq_true,
      Bool.not_eq_true']
  · simp [List.mem_append, mem_if_singleton, Bool.or_eq_true, or_assoc]
  · simp [List.mem_append, mem_if_singleton, Bool.or_eq_true, or_assoc]
  · simp [isDocFile, Bool.or_eq_true, decide_eq_true_eq, or_assoc]

/-! ## Chunk assembler lemmas -/

lemma closeRegion_type (ri : GitHubRepositoryInfo) (file : GitHubFile)
    (r : Region) (e : Nat) :
    (closeRegion ri file r e).type =
      (if r.isClass then ChunkType.CLASS else ChunkType.FUNCTION) := rfl

lemma scanLines_type_mem (ri : GitHubRepositoryInfo) (file : GitHubFile) :
    ∀ (rest : List (List Char)) (i : Nat) (st : Option Region) (c : CodeChunk),
      c ∈ scanLines ri file rest i st →
      c.type = ChunkType.CLASS ∨ c.type = ChunkType.FUNCTION := by
  intro rest
  induction rest with
  | nil =>
      intro i st c hc
      cases st with
      | none => simp [scanLines] at hc
      | some r =>
          simp only [scanLines, List.mem_singleton] at hc
          subst hc
          rw [closeRegion_type]
          by_cases h : r.isClass <;> simp [h]
  | cons line rest ih =>
      intro i st c hc
      cases st with
      | some r =>
          by_cases h : closesRegion r line
          · simp only [scanLines, h, if_true, List.mem_cons] at hc
            rcases hc with rfl | hc
            · rw [closeRegion_type]
              by_cases h2 : r.isClass <;> simp [h2]
            · exact ih _ _ _ hc
          · simp only [scanLines, h, Bool.false_eq_true, if_false] at hc
            exact ih _ _ _ hc
      | none =>
          cases hcm : classMatch line with
          | some name =>
              simp only [scanLines, hcm] at hc
              exact ih _ _ _ hc
          | none =>
              cases hfm : functionMatch line with
              | some name =>
                  simp only [scanLines, hcm, hfm] at hc
                  exact ih _ _ _ hc
              | none =>
                  simp only [scanLines, hcm, hfm] at hc
                  exact ih _ _ _ hc

lemma processFile_not_skipped (ri : GitHubRepositoryInfo) (f : GitHubFile)
    (h : shouldSkipFile f = false) :
    processFile ri f =
      createFileChunks ri f ++
        (if isProgrammingFile f then createCodeChunks ri f else []) := by
  simp [processFile, h]

lemma filter_progPart_eq_nil (ri : GitHubRepositoryInfo) (f : GitHubFile)
    (t : ChunkType) (h1 : t ≠ ChunkType.CLASS) (h2 : t ≠ ChunkType.FUNCTION) :
    (if isProgrammingFile f then createCodeChunks ri f else []).filter
      (fun c => decide (c.type = t)) = [] := by
  by_cases hp : isProgrammingFile f
  · simp only [hp, if_true]
    rw [List.filter_eq_nil_iff]
    intro c hc
    rcases scanLines_type_mem ri f _ _ _ c hc with h' | h' <;>
      simp [h', Ne.symm h1, Ne.symm h2]
  · simp [hp]

/-- C1 — a file with `shouldSkipFile` contributes no chunks at all; a
non-skipped file contributes exactly one `FILE`-kind chunk, whose content is
the file's full original text verbatim. -/
theorem processFile_file_chunk (ri : GitHubRepositoryInfo) (f : GitHubFile) :
    (shouldSkipFile f = true → processFile ri f = []) ∧
    (shouldSkipFile f = false →
      (processFile ri f).filter (fun c => decide (c.type = ChunkType.FILE)) =
        [{ content := f.content, type := ChunkType.FILE,
           useCases := determineUseCases f,
           metadata := { repositoryInfo := ri, filePath := f.path,
                         language := f.language, startLine := none,
                         endLine := none, symbolName := none } }]) := by
  constructor
  · intro h; simp [processFile, h]
  · intro h
    rw [processFile_not_skipped ri f h, List.filter_append,
      filter_progPart_eq_nil ri f ChunkType.FILE (by simp) (by simp),
      List.append_nil]
    unfold createFileChunks
    by_cases hr : isReadmeFile f <;> simp [hr, List.filter]

/-- C1 witness — concrete skipped (`.lock`-suffixed empty-ish) and
non-skipped files. -/
theorem processFile_file_chunk_witness :
    processFile ⟨[], [], [], none⟩ ⟨chars "a.log", chars "x", none, 1⟩ = [] ∧
    (processFile ⟨[], [], [], none⟩
        ⟨chars "a.txt", chars "hi", none, 2⟩).filter
        (fun c => decide (c.type = ChunkType.FILE)) =
      [{ content := chars "hi", type := ChunkType.FILE,
         useCases := determineUseCases ⟨chars "a.txt", chars "hi", none, 2⟩,
         metadata := { repositoryInfo := ⟨[], [], [], none⟩,
                       filePath := chars "a.txt", language := none,
                       startLine := none, endLine := none,
                       symbolName := none } }] :=
  ⟨(processFile_file_chunk ⟨[], [], [], none⟩
      ⟨chars "a.log", chars "x", none, 1⟩).1 (by decide),
   (processFile_file_chunk ⟨[], [], [], none⟩
      ⟨chars "a.txt", chars "hi", none, 2⟩).2 (by decide)⟩

lemma isReadmeFile_iff (f : GitHubFile) :
    isReadmeFile f = true ↔
      (toLowerStr (basename f.path) = chars "readme.md" ∨
       toLowerStr (basename f.path) = chars "readme" ∨
       (strIncludes (toLowerStr (basename f.path)) (chars "readme") = true ∧
        extname f.path = chars ".md")) := by
  unfold isReadmeFile
  simp [Bool.or_eq_true, Bool.and_eq_true, decide_eq_true_eq, or_assoc]

/-- C8 — among a non-skipped file's chunks there is exactly one `SUMMARY`
chunk, with the full file text and use-case set exactly `[EXPLANATION]`, when
the lower-cased basename is `readme.md` or `readme` or contains `readme` with
a literal `.md` extension; and no `SUMMARY` chunk otherwise. -/
theorem summary_chunk_exactly_for_readme (ri : GitHubRepositoryInfo)
    (f : GitHubFile) (h : shouldSkipFile f = false) :
    (processFile ri f).filter (fun c => decide (c.type = ChunkType.SUMMARY)) =
      (if (toLowerStr (basename f.path) = chars "readme.md" ∨
           toLowerStr (basename f.path) = chars "readme" ∨
           (strIncludes (toLowerStr (basename f.path)) (chars "readme") = true ∧
            extname f.path = chars ".md")) then
        [{ content := f.content, type := ChunkType.SUMMARY,
           useCases := [UseCase.EXPLANATION],
           metadata := { repositoryInfo := ri, filePath := f.path,
                         language := f.language, startLine := none,
                         endLine := none, symbolName := none } }]
       else []) := by
  rw [processFile_not_skipped ri f h, List.filter_append,
    filter_progPart_eq_nil ri f ChunkType.SUMMARY (by simp) (by simp),
    List.append_nil]
  unfold createFileChunks
  by_cases hr : isReadmeFile f
  · rw [if_pos ((isReadmeFile_iff f).mp hr)]
    simp [hr, List.filter]
  · have hnp : ¬(toLowerStr (basename f.path) = chars "readme.md" ∨
        toLowerStr (basename f.path) = chars "readme" ∨
        (strIncludes (toLowerStr (basename f.path)) (chars "readme") = true ∧
         extname f.path = chars ".md")) := by
      intro hp
      rw [(isReadmeFile_iff f).mpr hp] at hr
      exact hr rfl
    rw [if_neg hnp]
    simp [hr, List.filter]

/-- C8 witness — a concrete `README.md` gets its summary chunk. -/
theorem summary_chunk_exactly_for_readme_witness :
    (processFile ⟨[], [], [], none⟩
        ⟨chars "docs/README.md", chars "hello", none, 5⟩).filter
        (fun c => decide (c.type = ChunkType.SUMMARY)) =
      (if (toLowerStr (basename (chars "docs/README.md")) = chars "readme.md" ∨
           toLowerStr (basename (chars "docs/README.md")) = chars "readme" ∨
           (strIncludes (toLowerStr (basename (chars "docs/README.md")))
              (chars "readme") = true ∧
            extname (chars "docs/README.md") = chars ".md")) then
        [{ content := chars "hello", type := ChunkType.SUMMARY,
           useCases := [UseCase.EXPLANATION],
           metadata := { repositoryInfo := ⟨[], [], [], none⟩,
                         filePath := chars "docs/README.md", language := none,
                         startLine := none, endLine := none,
                         symbolName := none } }]
       else []) :=
  summary_chunk_exactly_for_readme ⟨[], [], [], none⟩
    ⟨chars "docs/README.md", chars "hello", none, 5⟩ (by decide)

/-! ## Line-range invariant of the boundary detector -/

lemma take_slice_succ (lines : List (List Char)) (s i : Nat) (line : List Char)
    (hs : s ≤ i) (hline : lines[i]? = some line) :
    (lines.drop s).take (i + 1 - s) = (lines.drop s).take (i - s) ++ [line] := by
  have h1 : i + 1 - s = (i - s) + 1 := by omega
  rw [h1, List.take_succ]
  have h2 : (lines.drop s)[i - s]? = some line := by
    rw [List.getElem?_drop]
    rwa [show s + (i - s) = i by omega]
  rw [h2]
  rfl

lemma scanLines_line_invariant (ri : GitHubRepositoryInfo) (file : GitHubFile)
    (lines : List (List Char)) :
    ∀ (rest : List (List Char)) (i : Nat) (st : Option Region),
      rest = lines.drop i → i ≤ lines.length →
      (∀ r, st = some r → r.startLine < i ∧
        r.content = (lines.drop r.startLine).take (i - r.startLine)) →
      ∀ c ∈ scanLines ri file rest i st,
        ∃ s e, c.metadata.startLine = some s ∧ c.metadata.endLine = some e ∧
          s ≤ e ∧ e < lines.length ∧
          c.content = List.intercalate ['\n'] ((lines.drop s).take (e + 1 - s)) := by
  intro rest
  induction rest with
  | nil =>
      intro i st hrest hlen hinv c hc
      cases st with
      | none => simp [scanLines] at hc
      | some r =>
          simp only [scanLines, List.mem_singleton] at hc
          subst hc
          obtain ⟨hslt, hcontent⟩ := hinv r rfl
          have hieq : i = lines.length := by
            have := List.drop_eq_nil_iff.mp hrest.symm
            omega
          refine ⟨r.startLine, i - 1, rfl, rfl, by omega, by omega, ?_⟩
          show List.intercalate ['\n'] r.content = _
          rw [hcontent, show i - 1 + 1 - r.startLine = i - r.startLine by omega]
  | cons line rest ih =>
      intro i st hrest hlen hinv c hc
      have hlt : i < lines.length := by
        rcases Nat.lt_or_ge i lines.length with h | h
        · exact h
        · rw [List.drop_eq_nil_iff.mpr (by omega)] at hrest
          exact absurd hrest (by simp)
      have hline : lines[i]? = some line := by
        have h0 : (lines.drop i)[0]? = some line := by rw [← hrest]; simp
        rwa [List.getElem?_drop, Nat.add_zero] at h0
      have hrest' : rest = lines.drop (i + 1) := by
        rw [← List.drop_drop, ← hrest]
        rfl
      cases st with
      | some r =>
          obtain ⟨hslt, hcontent⟩ := hinv r rfl
          by_cases hcl : closesRegion r line
          · simp only [scanLines, hcl, if_true, List.mem_cons] at hc
            rcases hc with rfl | hc
            · refine ⟨r.startLine, i, rfl, rfl, by omega, hlt, ?_⟩
              show List.intercalate ['\n'] (r.content ++ [line]) = _
              rw [hcontent,
                ← take_slice_succ lines r.startLine i line (by omega) hline]
            · exact ih _ _ hrest' (by omega) (by simp) c hc
          · simp only [scanLines, hcl, Bool.false_eq_true, if_false] at hc
            refine ih _ _ hrest' (by omega) ?_ c hc
            intro r' hr'
            rw [Option.some.injEq] at hr'
            subst hr'
            constructor
            · show r.startLine < i + 1
              omega
            · show r.content ++ [line] = _
              rw [hcontent,
                ← take_slice_succ lines r.startLine i line (by omega) hline]
      | none =>
          cases hcm : classMatch line with
          | some name =>
              simp only [scanLines, hcm] at hc
              refine ih _ _ hrest' (by omega) ?_ c hc
              intro r' hr'
              rw [Option.some.injEq] at hr'
              subst hr'
              constructor
              · show i < i + 1
                omega
              · show [line] = (lines.drop i).take (i + 1 - i)
                rw [show i + 1 - i = 1 by omega, ← hrest]
                rfl
          | none =>
              cases hfm : functionMatch line with
              | some name =>
                  simp only [scanLines, hcm, hfm] at hc
                  refine ih _ _ hrest' (by omega) ?_ c hc
                  intro r' hr'
                  rw [Option.some.injEq] at hr'
                  subst hr'
                  constructor
                  · show i < i + 1
                    omega
                  · show [line] = (lines.drop i).take (i + 1 - i)
                    rw [show i + 1 - i = 1 by omega, ← hrest]
                    rfl
              | none =>
                  simp only [scanLines, hcm, hfm] at hc
                  exact ih _ _ hrest' (by omega) (by simp) c hc

lemma mem_createFileChunks (ri : GitHubRepositoryInfo) (file : GitHubFile)
    (c : CodeChunk) (hc : c ∈ createFileChunks ri file) :
    (c.type = ChunkType.FILE ∨ c.type = ChunkType.SUMMARY) ∧
    c.metadata.startLine = none ∧ c.metadata.endLine = none := by
  unfold createFileChunks at hc
  by_cases h : isReadmeFile file
  · simp only [h, if_true, List.mem_append, List.mem_singleton] at hc
    rcases hc with rfl | rfl
    · exact ⟨Or.inl rfl, rfl, rfl⟩
    · exact ⟨Or.inr rfl, rfl, rfl⟩
  · simp only [h, Bool.false_eq_true, if_false, List.append_nil,
      List.mem_singleton] at hc
    subst hc
    exact ⟨Or.inl rfl, rfl, rfl⟩

/-- C2 — every chunk emitted by `processFiles` comes from some input file;
`FILE`/`SUMMARY` chunks never carry a line range, while `CLASS`/`FUNCTION`
chunks always carry `startLine ≤ endLine < numberOfLines` and their content is
exactly the original lines `[startLine, endLine]` of that file joined with a
newline. -/
theorem chunk_line_ranges (ri : GitHubRepositoryInfo) (files : List GitHubFile)
    (c : CodeChunk) (hc : c ∈ processFiles ri files) :
    ∃ f ∈ files,
      ((c.type = ChunkType.FILE ∨ c.type = ChunkType.SUMMARY) →
        c.metadata.startLine = none ∧ c.metadata.endLine = none) ∧
      ((c.type = ChunkType.CLASS ∨ c.type = ChunkType.FUNCTION) →
        ∃ s e, c.metadata.startLine = some s ∧ c.metadata.endLine = some e ∧
          s ≤ e ∧ e < (splitLines f.content).length ∧
          c.content = List.intercalate ['\n']
            (((splitLines f.content).drop s).take (e + 1 - s))) := by
  rw [processFiles] at hc
  rcases List.mem_flatMap.mp hc with ⟨f, hf, hcf⟩
  refine ⟨f, hf, ?_⟩
  by_cases hskip : shouldSkipFile f
  · rw [processFile, if_pos hskip] at hcf
    simp at hcf
  · rw [processFile_not_skipped ri f (by simpa using hskip)] at hcf
    rcases List.mem_append.mp hcf with hcf | hcf
    · obtain ⟨htype, h1, h2⟩ := mem_createFileChunks ri f c hcf
      refine ⟨fun _ => ⟨h1, h2⟩, fun hCF => ?_⟩
      rcases htype with h | h <;> rcases hCF with h' | h' <;>
        rw [h] at h' <;> exact absurd h' (by simp)
    · by_cases hp : isProgrammingFile f
      · rw [if_pos hp, createCodeChunks] at hcf
        refine ⟨fun hFS => ?_, fun _ => ?_⟩
        · rcases scanLines_type_mem ri f _ _ _ c hcf with h | h <;>
            rcases hFS with h' | h' <;> rw [h] at h' <;> exact absurd h' (by simp)
        · exact scanLines_line_invariant ri f (splitLines f.content) _ 0 none
            (by rw [List.drop_zero]) (by omega) (by simp) c hcf
      · rw [if_neg hp] at hcf
        simp at hcf

/-- C2 witness — the FILE chunk of a concrete non-skipped file. -/
theorem chunk_line_ranges_witness :
    ∃ f ∈ [(⟨chars "a.txt", chars "hi", none, 2⟩ : GitHubFile)],
      ((ChunkType.FILE = ChunkType.FILE ∨ ChunkType.FILE = ChunkType.SUMMARY) →
        (none : Option Nat) = none ∧ (none : Option Nat) = none) ∧
      ((ChunkType.FILE = ChunkType.CLASS ∨ ChunkType.FILE = ChunkType.FUNCTION) →
        ∃ s e, (none : Option Nat) = some s ∧ (none : Option Nat) = some e ∧
          s ≤ e ∧ e < (splitLines f.content).length ∧
          chars "hi" = List.intercalate ['\n']
            (((splitLines f.content).drop s).take (e + 1 - s))) :=
  chunk_line_ranges ⟨[], [], [], none⟩
    [⟨chars "a.txt", chars "hi", none, 2⟩]
    { content := chars "hi", type := ChunkType.FILE,
      useCases := [UseCase.BUG_FIXING],
      metadata := { repositoryInfo := ⟨[], [], [], none⟩,
                    filePath := chars "a.txt", language := none,
                    startLine := none, endLine := none, symbolName := none } }
    (by decide)

/-! ## End-of-file closing of an open region -/

lemma closesRegion_congr (r : Region) (content : List (List Char))
    (line : List Char) :
    closesRegion { r with content := content } line = closesRegion r line := rfl

lemma scanLines_no_close (ri : GitHubRepositoryInfo) (f : GitHubFile) :
    ∀ (rest : List (List Char)) (i : Nat) (r : Region),
      (∀ l ∈ rest, closesRegion r l = false) →
      ∃ c, scanLines ri f rest i (some r) = [c] ∧
        c.metadata.endLine = some (i + rest.length - 1) ∧
        c.metadata.symbolName = some r.name := by
  intro rest
  induction rest with
  | nil =>
      intro i r h
      exact ⟨closeRegion ri f r (i - 1), by simp [scanLines], by simp [closeRegion], rfl⟩
  | cons line rest ih =>
      intro i r h
      have hcl : closesRegion r line = false := h line (by simp)
      obtain ⟨c, hsc, he, hn⟩ := ih (i + 1) { r with content := r.content ++ [line] }
        (fun l hl => (closesRegion_congr r _ l).trans (h l (by simp [hl])))
      refine ⟨c, ?_, ?_, hn⟩
      · simp only [scanLines, hcl, Bool.false_eq_true, if_false]
        exact hsc
      · rw [he]
        congr 1
        simp only [List.length_cons]
        omega

/-- C7 — in a non-skipped programming-language file, a class/function region
open at line `i` that no later line closes is emitted as the single remaining
chunk of the scan, with `endLine` equal to the file's last line index. -/
theorem open_region_closes_at_eof (ri : GitHubRepositoryInfo) (f : GitHubFile)
    (hskip : shouldSkipFile f = false) (hprog : isProgrammingFile f = true)
    (r : Region) (i : Nat) (hi : i < (splitLines f.content).length)
    (hnoclose : ∀ l ∈ (splitLines f.content).drop i, closesRegion r l = false) :
    ∃ c, scanLines ri f ((splitLines f.content).drop i) i (some r) = [c] ∧
      c.metadata.endLine = some ((splitLines f.content).length - 1) ∧
      c.metadata.symbolName = some r.name := by
  obtain ⟨c, hsc, he, hn⟩ :=
    scanLines_no_close ri f ((splitLines f.content).drop i) i r hnoclose
  refine ⟨c, hsc, ?_, hn⟩
  rw [he]
  congr 1
  rw [List.length_drop]
  omega

/-- C7 witness — a function opened on line 0 with no closing brace in a
two-line file is closed at the last line index 1. -/
theorem open_region_closes_at_eof_witness :
    ∃ c,
      scanLines ⟨[], [], [], none⟩
        ⟨chars "a.ts", chars "function foo() \x7b\n  return 1;",
         some (chars "typescript"), 20⟩
        ((splitLines (chars "function foo() \x7b\n  return 1;")).drop 1) 1
        (some ⟨chars "foo", [chars "function foo() \x7b"], 0, false⟩) = [c] ∧
      c.metadata.endLine =
        some ((splitLines (chars "function foo() \x7b\n  return 1;")).length - 1) ∧
      c.metadata.symbolName = some (chars "foo") := by
  have h := open_region_closes_at_eof ⟨[], [], [], none⟩
    ⟨chars "a.ts", chars "function foo() \x7b\n  return 1;",
     some (chars "typescript"), 20⟩
    (by decide) (by decide)
    ⟨chars "foo", [chars "function foo() \x7b"], 0, false⟩ 1
    (by decide) (by decide)
  exact h

/-! ## Symbol detector regression inputs -/

lemma filter_fileChunks_eq_nil (ri : GitHubRepositoryInfo) (f : GitHubFile)
    (t : ChunkType) (h1 : t ≠ ChunkType.FILE) (h2 : t ≠ ChunkType.SUMMARY) :
    (createFileChunks ri f).filter (fun c => decide (c.type = t)) = [] := by
  rw [List.filter_eq_nil_iff]
  intro c hc
  rcases (mem_createFileChunks ri f c hc).1 with h | h <;>
    simp [h, Ne.symm h1, Ne.symm h2]

/-- C6 — a non-skipped programming-language file whose content is exactly
`function foo() {\n  return 1;\n}` yields exactly one FUNCTION chunk, named
`foo`, spanning lines 0–2; one whose content is exactly `class Bar {\n}\n`
yields exactly one CLASS chunk, named `Bar`, spanning lines 0–1. -/
theorem symbol_detector_regression (ri : GitHubRepositoryInfo) :
    (∀ f : GitHubFile, f.content = chars "function foo() \x7b\n  return 1;\n\x7d" →
      shouldSkipFile f = false → isProgrammingFile f = true →
      ((processFile ri f).filter
          (fun c => decide (c.type = ChunkType.FUNCTION))).map
        (fun c => (c.metadata.symbolName, c.metadata.startLine,
                   c.metadata.endLine)) =
        [(some (chars "foo"), some 0, some 2)]) ∧
    (∀ f : GitHubFile, f.content = chars "class Bar \x7b\n\x7d\n" →
      shouldSkipFile f = false → isProgrammingFile f = true →
      ((processFile ri f).filter
          (fun c => decide (c.type = ChunkType.CLASS))).map
        (fun c => (c.metadata.symbolName, c.metadata.startLine,
                   c.metadata.endLine)) =
        [(some (chars "Bar"), some 0, some 1)]) := by
  constructor
  · intro f hcontent hskip hprog
    rw [processFile_not_skipped ri f hskip, List.filter_append,
      filter_fileChunks_eq_nil ri f ChunkType.FUNCTION (by simp) (by simp),
      List.nil_append, if_pos hprog, createCodeChunks, hcontent]
    have hsplit : splitLines (chars "function foo() \x7b\n  return 1;\n\x7d") =
        [chars "function foo() \x7b", chars "  return 1;", chars "\x7d"] := by
      decide
    rw [hsplit]
    have e0c : classMatch (chars "function foo() \x7b") = none := by decide
    have e0f : functionMatch (chars "function foo() \x7b") =
        some (chars "foo") := by decide
    have e1 : closesRegion ⟨chars "foo", [chars "function foo() \x7b"], 0, false⟩
        (chars "  return 1;") = false := by decide
    have e2 : closesRegion
        ⟨chars "foo", [chars "function foo() \x7b", chars "  return 1;"], 0, false⟩
        (chars "\x7d") = true := by decide
    simp only [scanLines, e0c, e0f, e1, e2, Bool.false_eq_true, if_false,
      if_true, List.cons_append, List.nil_append]
    simp [closeRegion, List.filter]
  · intro f hcontent hskip hprog
    rw [processFile_not_skipped ri f hskip, List.filter_append,
      filter_fileChunks_eq_nil ri f ChunkType.CLASS (by simp) (by simp),
      List.nil_append, if_pos hprog, createCodeChunks, hcontent]
    have hsplit : splitLines (chars "class Bar \x7b\n\x7d\n") =
        [chars "class Bar \x7b", chars "\x7d", chars ""] := by decide
    rw [hsplit]
    have e0c : classMatch (chars "class Bar \x7b") = some (chars "Bar") := by
      decide
    have e1 : closesRegion ⟨chars "Bar", [chars "class Bar \x7b"], 0, true⟩
        (chars "\x7d") = true := by decide
    have e2c : classMatch (chars "") = none := by decide
    have e2f : functionMatch (chars "") = none := by decide
    simp only [scanLines, e0c, e1, e2c, e2f, Bool.false_eq_true, if_false,
      if_true, List.cons_append, List.nil_append]
    simp [closeRegion, List.filter]

/-- C6 witness — the two regression files evaluated concretely. -/
theorem symbol_detector_regression_witness :
    ((processFile ⟨[], [], [], none⟩
        ⟨chars "a.ts", chars "function foo() \x7b\n  return 1;\n\x7d",
         some (chars "typescript"), 30⟩).filter
        (fun c => decide (c.type = ChunkType.FUNCTION))).map
      (fun c => (c.metadata.symbolName, c.metadata.startLine,
                 c.metadata.endLine)) =
      [(some (chars "foo"), some 0, some 2)] ∧
    ((processFile ⟨[], [], [], none⟩
        ⟨chars "b.ts", chars "class Bar \x7b\n\x7d\n",
         some (chars "typescript"), 14⟩).filter
        (fun c => decide (c.type = ChunkType.CLASS))).map
      (fun c => (c.metadata.symbolName, c.metadata.startLine,
                 c.metadata.endLine)) =
      [(some (chars "Bar"), some 0, some 1)] :=
  ⟨(symbol_detector_regression ⟨[], [], [], none⟩).1
      ⟨chars "a.ts", chars "function foo() \x7b\n  return 1;\n\x7d",
       some (chars "typescript"), 30⟩ rfl (by decide) (by decide),
   (symbol_detector_regression ⟨[], [], [], none⟩).2
      ⟨chars "b.ts", chars "class Bar \x7b\n\x7d\n",
       some (chars "typescript"), 14⟩ rfl (by decide) (by decide)⟩

/-! ## Repository owner/name derivation -/

/-- C9 counterexample — for the url `https://h/o/a.gitb` the last segment is
`a.gitb`, which has no trailing `.git` suffix, so the claim says the derived
name is `a.gitb` unchanged; but the constructor's `name.replace('.git', '')`
removes the first (interior) occurrence of `.git`, producing `ab`. -/
theorem repo_name_replace_counterexample :
    (resolveRepoInfo ⟨chars "https://h/o/a.gitb", [], [], none⟩).name =
      chars "ab" ∧
    specStripTrailingGitSuffix (chars "a.gitb") = chars "a.gitb" ∧
    decide (chars "ab" = chars "a.gitb") = false := by decide

/-- C9 (amended) — when owner or name is missing and the URL splits on `/`
into at least two segments, a missing owner becomes the second-to-last
segment, and a missing name becomes the last segment with the FIRST
occurrence of the substring `.git` removed (this strips a trailing `.git`
suffix in the common case, but also rewrites interior occurrences). -/
theorem repo_owner_name_derivation (info : GitHubRepositoryInfo)
    (h : info.owner = [] ∨ info.name = [])
    (hlen : 2 ≤ (List.splitOn '/' info.url).length) :
    (resolveRepoInfo info).owner =
      (if info.owner = [] then
        (List.splitOn '/' info.url).dropLast.getLastD []
       else info.owner) ∧
    (resolveRepoInfo info).name =
      (if info.name = [] then
        replaceFirstErase (chars ".git")
          ((List.splitOn '/' info.url).getLastD [])
       else info.name) := by
  have hcond : (info.owner.isEmpty || info.name.isEmpty) = true := by
    rcases h with h | h <;> simp [h]
  simp only [resolveRepoInfo, hcond, hlen, eq_self_iff_true, if_true]
  constructor <;> simp [List.isEmpty_iff]

/-- C9 witness — the canonical clone URL. -/
theorem repo_owner_name_derivation_witness :
    (resolveRepoInfo
        ⟨chars "https://github.com/owner/repo.git", [], [], none⟩).owner =
      (if ([] : List Char) = [] then
        (List.splitOn '/' (chars "https://github.com/owner/repo.git")).dropLast.getLastD []
       else []) ∧
    (resolveRepoInfo
        ⟨chars "https://github.com/owner/repo.git", [], [], none⟩).name =
      (if ([] : List Char) = [] then
        replaceFirstErase (chars ".git")
          ((List.splitOn '/' (chars "https://github.com/owner/repo.git")).getLastD [])
       else []) :=
  repo_owner_name_derivation
    ⟨chars "https://github.com/owner/repo.git", [], [], none⟩
    (Or.inl rfl) (by decide)

end GithubRag
